import Mathlib

/-!
Verification development for the pipeshub-ai ingestion/indexing pipeline.

The repository's visible sources are a docker-compose/pyproject manifest and
two frontend components; the ingestion pipeline itself (chunking, embedding,
indexing coordinator, store clients) is described by the specification and is
modelled here from the spec's words.  Frontend components and the Kafka topic
manifest are embedded directly from the sources.
-/

/- ## Generic association-list store with upsert semantics -/

/-- Modelled from the spec: store lookup by key (vector / graph / document
store clients expose get-by-identifier). -/
def alookup {κ α : Type} [DecidableEq κ] (k : κ) : List (κ × α) → Option α
  | [] => none
  | (k', v) :: rest => if k' = k then some v else alookup k rest

/-- Modelled from the spec: "Each write is an upsert keyed by the
deterministic chunk or document identifier" — insert-or-replace. -/
def upsert {κ α : Type} [DecidableEq κ] (k : κ) (v : α) : List (κ × α) → List (κ × α)
  | [] => [(k, v)]
  | (k', v') :: rest => if k' = k then (k, v) :: rest else (k', v') :: upsert k v rest

/-- Apply a sequence of keyed upserts to a store. -/
def applyUpserts {κ α : Type} [DecidableEq κ] (m : List (κ × α)) : List (κ × α) → List (κ × α)
  | [] => m
  | (k, v) :: rest => applyUpserts (upsert k v m) rest

/-- The last value written to key `k` by a sequence of writes, if any. -/
def lastVal {κ α : Type} [DecidableEq κ] (k : κ) : List (κ × α) → Option α
  | [] => none
  | (k', v) :: rest =>
    match lastVal k rest with
    | some w => some w
    | none => if k' = k then some v else none

/-- The keys of an association-list store. -/
abbrev keys {κ α : Type} (m : List (κ × α)) : List κ := m.map Prod.fst

/-- A store has no duplicate entries when its keys are pairwise distinct. -/
def keysNodup {κ α : Type} [DecidableEq κ] (m : List (κ × α)) : Prop := (keys m).Nodup

instance {κ α : Type} [DecidableEq κ] (m : List (κ × α)) : Decidable (keysNodup m) := by
  unfold keysNodup; infer_instance

theorem alookup_upsert_self {κ α : Type} [DecidableEq κ] (k : κ) (v : α)
    (m : List (κ × α)) : alookup k (upsert k v m) = some v := by
  induction m with
  | nil => simp [upsert, alookup]
  | cons p rest ih =>
    obtain ⟨k', v'⟩ := p
    by_cases h : k' = k
    · simp [upsert, h, alookup]
    · simp [upsert, h, alookup, ih]

theorem alookup_upsert_ne {κ α : Type} [DecidableEq κ] (k j : κ) (v : α)
    (m : List (κ × α)) (hne : j ≠ k) : alookup j (upsert k v m) = alookup j m := by
  have hkj : ¬ k = j := fun hh => hne hh.symm
  induction m with
  | nil => simp [upsert, alookup, hkj]
  | cons p rest ih =>
    obtain ⟨k', v'⟩ := p
    by_cases h : k' = k
    · have hk'j : ¬ k' = j := by rw [h]; exact hkj
      simp [upsert, h, alookup, hkj, hk'j]
    · by_cases h2 : k' = j
      · simp [upsert, h, alookup, h2, hne]
      · simp [upsert, h, alookup, h2, ih]

theorem alookup_applyUpserts {κ α : Type} [DecidableEq κ] (k : κ)
    (ws : List (κ × α)) : ∀ m : List (κ × α),
    alookup k (applyUpserts m ws) =
      match lastVal k ws with
      | some v => some v
      | none => alookup k m := by
  induction ws with
  | nil => intro m; simp [applyUpserts, lastVal]
  | cons p rest ih =>
    intro m
    obtain ⟨k', v⟩ := p
    show alookup k (applyUpserts (upsert k' v m) rest) = _
    rw [ih]
    cases hl : lastVal k rest with
    | some w => simp [lastVal, hl]
    | none =>
      by_cases h : k' = k
      · subst h
        simp [lastVal, hl, alookup_upsert_self]
      · simp [lastVal, hl, h, alookup_upsert_ne k' k v m (fun hh => h hh.symm)]

theorem keys_upsert {κ α : Type} [DecidableEq κ] (k : κ) (v : α)
    (m : List (κ × α)) :
    keys (upsert k v m) = if k ∈ keys m then keys m else keys m ++ [k] := by
  induction m with
  | nil => simp [upsert, keys]
  | cons p rest ih =>
    obtain ⟨k', v'⟩ := p
    by_cases h : k' = k
    · subst h
      simp [upsert, keys]
    · by_cases h2 : k ∈ keys rest
      · simp [upsert, h, keys, h2, List.map_cons] at ih ⊢
        simpa [h2] using ih
      · simp [upsert, h, keys, List.map_cons] at ih ⊢
        have hne : ¬ k = k' := fun hh => h hh.symm
        simp [h2, hne] at ih ⊢
        exact ih

theorem keysNodup_upsert {κ α : Type} [DecidableEq κ] (k : κ) (v : α)
    (m : List (κ × α)) (h : keysNodup m) : keysNodup (upsert k v m) := by
  unfold keysNodup at h ⊢
  rw [keys_upsert]
  by_cases hm : k ∈ keys m
  · simpa [hm] using h
  · simp [hm, List.nodup_append, h]

theorem keysNodup_applyUpserts {κ α : Type} [DecidableEq κ]
    (ws : List (κ × α)) : ∀ m : List (κ × α),
    keysNodup m → keysNodup (applyUpserts m ws) := by
  induction ws with
  | nil => intro m h; exact h
  | cons p rest ih =>
    intro m h
    obtain ⟨k, v⟩ := p
    exact ih (upsert k v m) (keysNodup_upsert k v m h)

theorem lastVal_isSome_of_mem_keys {κ α : Type} [DecidableEq κ] (k : κ)
    (ws : List (κ × α)) (h : k ∈ keys ws) : (lastVal k ws).isSome := by
  induction ws with
  | nil => simp [keys] at h
  | cons p rest ih =>
    obtain ⟨k', v⟩ := p
    cases hl : lastVal k rest with
    | some w => simp [lastVal, hl]
    | none =>
      have hk : k' = k := by
        rcases List.mem_cons.mp h with h1 | h1
        · exact h1.symm
        · exfalso
          have h2 := ih h1
          rw [hl] at h2
          simp at h2
      simp [lastVal, hl, hk]

theorem alookup_applyUpserts_isSome {κ α : Type} [DecidableEq κ] (k : κ)
    (m ws : List (κ × α)) (h : k ∈ keys ws) :
    (alookup k (applyUpserts m ws)).isSome := by
  rw [alookup_applyUpserts]
  have h2 := lastVal_isSome_of_mem_keys k ws h
  cases hl : lastVal k ws with
  | some w => simp
  | none => rw [hl] at h2; simp at h2

/- ## Chunking Stage -/

/-- A chunk's text span: half-open interval over offsets into the normalized
text, `start` inclusive, `stop` exclusive. -/
structure ChunkSpan where
  start : Nat
  stop : Nat
deriving DecidableEq, Repr

/-- Modelled from the spec: whitespace characters for the "empty or
whitespace-only document" edge case of the Chunking Stage. -/
def isWsChar (c : Char) : Bool :=
  c = ' ' || c = '\t' || c = '\n' || c = '\r'

/-- Modelled from the spec: the Chunking Stage's sliding window.  Starting at
offset `s`, emit a chunk of `C` characters and advance by `C - O` (so adjacent
chunks share `O` characters) until the window reaches the end of the text, at
which point the final (possibly shorter) chunk ends at `L`.  The `fuel`
argument makes the recursion structural; `fuel = L` always suffices when
`O < C` (proved below). -/
def chunkSpansGo (C O L : Nat) : Nat → Nat → List ChunkSpan
  | 0, s => [⟨s, L⟩]
  | fuel + 1, s =>
    if s + C < L then ⟨s, s + C⟩ :: chunkSpansGo C O L fuel (s + (C - O))
    else [⟨s, L⟩]

/-- Modelled from the spec: the Chunking Stage.  "Input: normalized text +
configuration (maximum chunk size, overlap size). Output: ordered sequence of
Chunks covering the entire text"; "an empty/whitespace-only document yields
zero chunks". -/
def chunkText (C O : Nat) (text : List Char) : List ChunkSpan :=
  if text.all isWsChar then [] else chunkSpansGo C O text.length text.length 0

/-- Adjacency discipline for a chunk sequence: each chunk starts `C - O` after
its predecessor, overlaps it by exactly `O` characters, and extends strictly
beyond it. -/
def adjacentOk (C O : Nat) : List ChunkSpan → Bool
  | a :: b :: rest =>
    decide (b.start = a.start + (C - O)) && decide (a.stop = b.start + O) &&
      decide (a.stop < b.stop) && adjacentOk C O (b :: rest)
  | _ => true

theorem chunkSpansGo_covers (C O : Nat) (hCO : O < C) :
    ∀ f L s p : Nat, L ≤ s + f → s ≤ p → p < L →
      ∃ cs ∈ chunkSpansGo C O L f s, cs.start ≤ p ∧ p < cs.stop := by
  intro f
  induction f with
  | zero => intro L s p hf hsp hp; omega
  | succ n ih =>
    intro L s p hf hsp hp
    by_cases h : s + C < L
    · rw [chunkSpansGo, if_pos h]
      by_cases hpc : p < s + C
      · exact ⟨⟨s, s + C⟩, List.mem_cons_self _ _, hsp, hpc⟩
      · obtain ⟨cs, hm, h1, h2⟩ := ih L (s + (C - O)) p (by omega) (by omega) hp
        exact ⟨cs, List.mem_cons_of_mem _ hm, h1, h2⟩
    · rw [chunkSpansGo, if_neg h]
      exact ⟨⟨s, L⟩, List.mem_singleton.mpr rfl, hsp, hp⟩

theorem chunkSpansGo_head (C O : Nat) :
    ∀ f L s : Nat, L ≤ s + f → s < L →
      ∃ rest, chunkSpansGo C O L f s = ChunkSpan.mk s (min (s + C) L) :: rest := by
  intro f
  induction f with
  | zero => intro L s hf hs; omega
  | succ n _ =>
    intro L s hf hs
    by_cases h : s + C < L
    · refine ⟨chunkSpansGo C O L n (s + (C - O)), ?_⟩
      rw [chunkSpansGo, if_pos h]
      have hmin : min (s + C) L = s + C := by omega
      rw [hmin]
    · refine ⟨[], ?_⟩
      rw [chunkSpansGo, if_neg h]
      have hmin : min (s + C) L = L := by omega
      rw [hmin]

theorem chunkSpansGo_adjacent (C O : Nat) (hCO : O < C) :
    ∀ f L s : Nat, L ≤ s + f → s < L →
      adjacentOk C O (chunkSpansGo C O L f s) = true := by
  intro f
  induction f with
  | zero => intro L s hf hs; omega
  | succ n ih =>
    intro L s hf hs
    by_cases h : s + C < L
    · have hIH := ih L (s + (C - O)) (by omega) (by omega)
      obtain ⟨rest, hrest⟩ := chunkSpansGo_head C O n L (s + (C - O)) (by omega) (by omega)
      rw [chunkSpansGo, if_pos h, hrest]
      rw [hrest] at hIH
      simp only [adjacentOk, hIH, Bool.and_true, Bool.and_eq_true, decide_eq_true_eq]
      refine ⟨⟨trivial, by omega⟩, by omega⟩
    · rw [chunkSpansGo, if_neg h]
      rfl

theorem chunkSpansGo_bounds (C O : Nat) (hC : 0 < C) :
    ∀ f L s : Nat, s < L →
      ∀ cs ∈ chunkSpansGo C O L f s, s ≤ cs.start ∧ cs.start < cs.stop ∧ cs.stop ≤ L := by
  intro f
  induction f with
  | zero =>
    intro L s hs cs hm
    rw [chunkSpansGo] at hm
    rcases List.mem_singleton.mp hm with h
    subst h
    exact ⟨Nat.le_refl _, hs, Nat.le_refl _⟩
  | succ n ih =>
    intro L s hs cs hm
    by_cases h : s + C < L
    · rw [chunkSpansGo, if_pos h] at hm
      rcases List.mem_cons.mp hm with h1 | h1
      · subst h1
        exact ⟨Nat.le_refl _, show s < s + C from by omega, show s + C ≤ L from by omega⟩
      · obtain ⟨ha, hb, hc⟩ := ih L (s + (C - O)) (by omega) cs h1
        exact ⟨by omega, hb, hc⟩
    · rw [chunkSpansGo, if_neg h] at hm
      rcases List.mem_singleton.mp hm with h1
      subst h1
      exact ⟨Nat.le_refl _, hs, Nat.le_refl _⟩

theorem length_pos_of_all_eq_false {p : Char → Bool} {l : List Char}
    (h : l.all p = false) : 0 < l.length := by
  cases l with
  | nil => simp [List.all_nil] at h
  | cons c cs => simp

/- ## Pipeline data model -/

/-- Modelled from the spec: document processing status
(`pending`, `extracting`, `chunking`, `embedding`, `indexed`, `failed`). -/
inductive DocStatus
  | pending
  | extracting
  | chunking
  | embedding
  | indexed
  | failed
deriving DecidableEq, Repr

/-- Modelled from the spec: the error taxonomy of section 7. -/
inductive ErrClass
  | transientStore
  | permanentFormat
  | embeddingBackend
  | consistencyConflict
  | configurationError
deriving DecidableEq, Repr

/-- Modelled from the spec: per-document, per-revision Job State with the
last error classification attached on failure. -/
structure JobState where
  status : DocStatus
  lastError : Option ErrClass
deriving DecidableEq, Repr

/-- Modelled from the spec: a document presented to the Indexing Coordinator —
identifier, revision number, and normalized text from the Extraction Stage. -/
structure Doc where
  docId : String
  revision : Nat
  text : List Char
deriving DecidableEq, Repr

/-- Modelled from the spec: chunking configuration (maximum chunk size,
overlap size). -/
structure ChunkConfig where
  maxChunk : Nat
  overlap : Nat
deriving DecidableEq, Repr

/-- Modelled from the spec: chunk identifier "derived deterministically from
document identifier + offset, so reprocessing yields the same identifiers". -/
def chunkIdOf (docId : String) (offset : Nat) : String × Nat := (docId, offset)

/-- Modelled from the spec: document store key — "put/get document record and
status by identifier + revision". -/
def docKeyOf (docId : String) (rev : Nat) : String × Nat := (docId, rev)

/-- Modelled from the spec: a Chunk — deterministic identifier, ordinal
position, text span, and the chunk's text. -/
structure Chunk where
  id : String × Nat
  ordinal : Nat
  span : ChunkSpan
  text : List Char
deriving DecidableEq, Repr

/-- The chunks the Chunking Stage produces for a document. -/
def chunksOf (cfg : ChunkConfig) (doc : Doc) : List Chunk :=
  (chunkText cfg.maxChunk cfg.overlap doc.text).enum.map fun p =>
    ⟨chunkIdOf doc.docId p.2.start, p.1, p.2,
      (doc.text.drop p.2.start).take (p.2.stop - p.2.start)⟩

/-- Modelled from the spec: per-chunk metadata record kept in the
graph/metadata store. -/
structure GraphMeta where
  docId : String
  revision : Nat
  ordinal : Nat
deriving DecidableEq, Repr

/- ## Embedding Stage -/

/-- Modelled from the spec: the Embedding Stage.  "Input: batch of chunk
texts. Output: one vector per chunk, same order. Fails with
`EmbeddingBackendError` … a partial failure fails the whole batch."  The
external embedding capability is `embedOne`; `none` is a per-chunk backend
failure. -/
def embedBatch (embedOne : List Char → Option (List Int)) :
    List (List Char) → Except ErrClass (List (List Int))
  | [] => .ok []
  | t :: ts =>
    match embedOne t, embedBatch embedOne ts with
    | some v, .ok vs => .ok (v :: vs)
    | _, _ => .error .embeddingBackend

theorem embedBatch_ok_length (embedOne : List Char → Option (List Int)) :
    ∀ ts vs, embedBatch embedOne ts = .ok vs → vs.length = ts.length := by
  intro ts
  induction ts with
  | nil => intro vs h; simp [embedBatch] at h; simp [← h]
  | cons t ts ih =>
    intro vs h
    rw [embedBatch] at h
    cases he : embedOne t with
    | none => rw [he] at h; exact absurd h (by simp)
    | some v =>
      rw [he] at h
      cases hr : embedBatch embedOne ts with
      | error e => rw [hr] at h; exact absurd h (by simp)
      | ok ws =>
        rw [hr] at h
        simp at h
        subst h
        simp [ih ws hr]

theorem embedBatch_ok_zip (embedOne : List Char → Option (List Int)) :
    ∀ ts vs, embedBatch embedOne ts = .ok vs →
      ∀ p ∈ ts.zip vs, embedOne p.1 = some p.2 := by
  intro ts
  induction ts with
  | nil => intro vs h p hp; simp at hp
  | cons t ts ih =>
    intro vs h p hp
    rw [embedBatch] at h
    cases he : embedOne t with
    | none => rw [he] at h; exact absurd h (by simp)
    | some v =>
      rw [he] at h
      cases hr : embedBatch embedOne ts with
      | error e => rw [hr] at h; exact absurd h (by simp)
      | ok ws =>
        rw [hr] at h
        simp at h
        subst h
        rcases List.mem_cons.mp hp with h1 | h1
        · subst h1; exact he
        · exact ih ws hr p h1

theorem embedBatch_error_iff (embedOne : List Char → Option (List Int)) :
    ∀ ts, (∃ e, embedBatch embedOne ts = .error e) ↔ ∃ t ∈ ts, embedOne t = none := by
  intro ts
  induction ts with
  | nil => simp [embedBatch]
  | cons t ts ih =>
    constructor
    · rintro ⟨e, h⟩
      rw [embedBatch] at h
      cases he : embedOne t with
      | none => exact ⟨t, List.mem_cons_self _ _, he⟩
      | some v =>
        rw [he] at h
        cases hr : embedBatch embedOne ts with
        | error e2 =>
          obtain ⟨t2, ht2, he2⟩ := ih.mp ⟨e2, hr⟩
          exact ⟨t2, List.mem_cons_of_mem _ ht2, he2⟩
        | ok ws => rw [hr] at h; exact absurd h (by simp)
    · rintro ⟨t2, ht2, he2⟩
      rw [embedBatch]
      rcases List.mem_cons.mp ht2 with h1 | h1
      · subst h1
        rw [he2]
        exact ⟨.embeddingBackend, rfl⟩
      · obtain ⟨e, he⟩ := ih.mpr ⟨t2, h1, he2⟩
        rw [he]
        cases embedOne t <;> exact ⟨.embeddingBackend, rfl⟩

theorem embedBatch_error_class (embedOne : List Char → Option (List Int)) :
    ∀ ts e, embedBatch embedOne ts = .error e → e = .embeddingBackend := by
  intro ts
  induction ts with
  | nil => intro e h; simp [embedBatch] at h
  | cons t ts ih =>
    intro e h
    rw [embedBatch] at h
    cases he : embedOne t with
    | none => rw [he] at h; cases embedBatch embedOne ts <;> simp_all
    | some v =>
      rw [he] at h
      cases hr : embedBatch embedOne ts with
      | error e2 =>
        rw [hr] at h
        injection h with h2
        exact h2.symm
      | ok ws => rw [hr] at h; simp at h

/- ## Retry policy -/

/-- Modelled from the spec: bounded retries.  `tryAttempts run i n` performs
attempts `i, i+1, …, i+n`, returning the first success or the error of the
last attempt. -/
def tryAttempts {α : Type} (run : Nat → Except ErrClass α) (i : Nat) :
    Nat → Except ErrClass α
  | 0 => run i
  | n + 1 =>
    match run i with
    | .ok v => .ok v
    | .error _ => tryAttempts run (i + 1) n

theorem tryAttempts_ok {α : Type} (run : Nat → Except ErrClass α) :
    ∀ n i v, tryAttempts run i n = .ok v → ∃ j, run j = .ok v := by
  intro n
  induction n with
  | zero => intro i v h; exact ⟨i, h⟩
  | succ n ih =>
    intro i v h
    rw [tryAttempts] at h
    cases hr : run i with
    | ok w => rw [hr] at h; simp at h; exact ⟨i, h ▸ hr⟩
    | error e => rw [hr] at h; exact ih (i + 1) v h

theorem tryAttempts_all_fail {α : Type} (run : Nat → Except ErrClass α)
    (errOf : Nat → ErrClass) :
    ∀ n i, (∀ j, j ≤ n → run (i + j) = .error (errOf (i + j))) →
      tryAttempts run i n = .error (errOf (i + n)) := by
  intro n
  induction n with
  | zero => intro i h; simpa using h 0 (Nat.le_refl 0)
  | succ n ih =>
    intro i h
    rw [tryAttempts]
    have h0 := h 0 (Nat.zero_le _)
    simp at h0
    rw [h0]
    have h2 := ih (i + 1) (fun j hj => by
      have := h (j + 1) (by omega)
      simpa [Nat.add_assoc, Nat.add_comm 1 j] using this)
    rw [h2]
    have : i + 1 + n = i + (n + 1) := by omega
    rw [this]

/- ## Store writes and the Indexing Coordinator -/

/-- Modelled from the spec: a single store write issued by the coordinator —
every one is an upsert keyed by a deterministic chunk or document identifier. -/
inductive WriteOp
  | vecUpsert (chunkId : String × Nat) (vec : List Int)
  | graphUpsert (chunkId : String × Nat) (meta : GraphMeta)
  | docPut (docKey : String × Nat) (job : JobState)
deriving DecidableEq, Repr

/-- Modelled from the spec: the three independent stores (vector index,
graph/metadata store, document store). -/
structure Stores where
  vector : List ((String × Nat) × List Int)
  graph : List ((String × Nat) × GraphMeta)
  docs : List ((String × Nat) × JobState)
deriving DecidableEq, Repr

/-- Apply one write to the stores. -/
def applyOp (s : Stores) : WriteOp → Stores
  | .vecUpsert k v => { s with vector := upsert k v s.vector }
  | .graphUpsert k m => { s with graph := upsert k m s.graph }
  | .docPut k j => { s with docs := upsert k j s.docs }

/-- Apply a sequence of writes in order. -/
def applyTrace (s : Stores) : List WriteOp → Stores
  | [] => s
  | op :: rest => applyTrace (applyOp s op) rest

/-- The vector-store writes of a trace, in order. -/
def projVec : List WriteOp → List ((String × Nat) × List Int)
  | [] => []
  | .vecUpsert k v :: rest => (k, v) :: projVec rest
  | _ :: rest => projVec rest

/-- The graph-store writes of a trace, in order. -/
def projGraph : List WriteOp → List ((String × Nat) × GraphMeta)
  | [] => []
  | .graphUpsert k m :: rest => (k, m) :: projGraph rest
  | _ :: rest => projGraph rest

/-- The document-store writes of a trace, in order. -/
def projDocs : List WriteOp → List ((String × Nat) × JobState)
  | [] => []
  | .docPut k j :: rest => (k, j) :: projDocs rest
  | _ :: rest => projDocs rest

theorem applyTrace_proj (tr : List WriteOp) : ∀ s : Stores,
    applyTrace s tr =
      ⟨applyUpserts s.vector (projVec tr), applyUpserts s.graph (projGraph tr),
        applyUpserts s.docs (projDocs tr)⟩ := by
  induction tr with
  | nil => intro s; simp [applyTrace, projVec, projGraph, projDocs, applyUpserts]
  | cons op rest ih =>
    intro s
    cases op with
    | vecUpsert k v =>
      show applyTrace (applyOp s (.vecUpsert k v)) rest = _
      rw [ih]
      simp [applyOp, projVec, projGraph, projDocs, applyUpserts]
    | graphUpsert k m =>
      show applyTrace (applyOp s (.graphUpsert k m)) rest = _
      rw [ih]
      simp [applyOp, projVec, projGraph, projDocs, applyUpserts]
    | docPut k j =>
      show applyTrace (applyOp s (.docPut k j)) rest = _
      rw [ih]
      simp [applyOp, projVec, projGraph, projDocs, applyUpserts]

/-- Modelled from the spec: events the coordinator emits on the completion
channel — a completion event on terminal success, a failure event on retry
exhaustion. -/
inductive PipeEvent
  | completion (docId : String) (rev : Nat)
  | failure (docId : String) (rev : Nat) (err : ErrClass)
deriving DecidableEq, Repr

/-- Modelled from the spec: the outcome of one delivery of an ingestion event
to the coordinator: the store writes it issued, the events it emitted, and
whether it raised an error back to the event-bus handler. -/
structure HandlerResult where
  ops : List WriteOp
  emitted : List PipeEvent
  raised : Bool
deriving DecidableEq, Repr

/-- Modelled from the spec: "commits consumer offset only after `handler`
returns success" — the offset is committed exactly when no error was raised. -/
def offsetCommitted (r : HandlerResult) : Bool := !r.raised

/-- Modelled from the spec: the Indexing Coordinator's handling of one
ingestion event for document revision `doc.revision`, where `currentRev` is
the document's current revision re-read from the document store before
persisting (staleness check), `embedAttempt i` is the embedding capability as
seen by retry attempt `i`, and `retryLimit` bounds the retries.  On success it
upserts one vector and one metadata record per chunk and then (last) writes the
`indexed` status; an empty/whitespace-only text fast-forwards to `indexed`; a
superseded revision aborts without error; exhausted retries write `failed`
with the last error classification and emit a failure event without raising. -/
def handleEvent (cfg : ChunkConfig) (retryLimit : Nat)
    (embedAttempt : Nat → List Char → Option (List Int))
    (doc : Doc) (currentRev : Nat) : HandlerResult :=
  if doc.revision < currentRev then
    ⟨[], [], false⟩
  else if doc.text.all isWsChar then
    ⟨[.docPut (docKeyOf doc.docId doc.revision) ⟨.indexed, none⟩],
      [.completion doc.docId doc.revision], false⟩
  else
    let chunks := chunksOf cfg doc
    match tryAttempts (fun i => embedBatch (embedAttempt i) (chunks.map Chunk.text))
        0 retryLimit with
    | .ok vs =>
      ⟨(chunks.zip vs).map (fun cv => .vecUpsert cv.1.id cv.2) ++
          chunks.map (fun c => .graphUpsert c.id ⟨doc.docId, doc.revision, c.ordinal⟩) ++
          [.docPut (docKeyOf doc.docId doc.revision) ⟨.indexed, none⟩],
        [.completion doc.docId doc.revision], false⟩
    | .error e =>
      ⟨[.docPut (docKeyOf doc.docId doc.revision) ⟨.failed, some e⟩],
        [.failure doc.docId doc.revision e], false⟩

theorem projVec_append (a b : List WriteOp) :
    projVec (a ++ b) = projVec a ++ projVec b := by
  induction a with
  | nil => simp [projVec]
  | cons op rest ih => cases op <;> simp [projVec, ih]

theorem projGraph_append (a b : List WriteOp) :
    projGraph (a ++ b) = projGraph a ++ projGraph b := by
  induction a with
  | nil => simp [projGraph]
  | cons op rest ih => cases op <;> simp [projGraph, ih]

theorem projDocs_append (a b : List WriteOp) :
    projDocs (a ++ b) = projDocs a ++ projDocs b := by
  induction a with
  | nil => simp [projDocs]
  | cons op rest ih => cases op <;> simp [projDocs, ih]

theorem projVec_vecOps (l : List (Chunk × List Int)) :
    projVec (l.map fun cv => WriteOp.vecUpsert cv.1.id cv.2) =
      l.map fun cv => (cv.1.id, cv.2) := by
  induction l with
  | nil => simp [projVec]
  | cons x rest ih => simp [projVec, ih]

theorem projVec_graphOps (doc : Doc) (l : List Chunk) :
    projVec (l.map fun c => WriteOp.graphUpsert c.id ⟨doc.docId, doc.revision, c.ordinal⟩) = [] := by
  induction l with
  | nil => simp [projVec]
  | cons x rest ih => simp [projVec, ih]

theorem projGraph_vecOps (l : List (Chunk × List Int)) :
    projGraph (l.map fun cv => WriteOp.vecUpsert cv.1.id cv.2) = [] := by
  induction l with
  | nil => simp [projGraph]
  | cons x rest ih => simp [projGraph, ih]

theorem projGraph_graphOps (doc : Doc) (l : List Chunk) :
    projGraph (l.map fun c => WriteOp.graphUpsert c.id ⟨doc.docId, doc.revision, c.ordinal⟩) =
      l.map fun c => (c.id, (⟨doc.docId, doc.revision, c.ordinal⟩ : GraphMeta)) := by
  induction l with
  | nil => simp [projGraph]
  | cons x rest ih => simp [projGraph, ih]

theorem projDocs_nil_of_no_docPut (tr : List WriteOp)
    (h : ∀ op ∈ tr, ∀ k j, op ≠ WriteOp.docPut k j) : projDocs tr = [] := by
  induction tr with
  | nil => simp [projDocs]
  | cons op rest ih =>
    have hrest := ih fun op2 hop2 => h op2 (List.mem_cons_of_mem _ hop2)
    cases op with
    | vecUpsert k v => simp [projDocs, hrest]
    | graphUpsert k m => simp [projDocs, hrest]
    | docPut k j => exact absurd rfl (h _ (List.mem_cons_self _ _) k j)

theorem keys_vecOps (chunks : List Chunk) (vs : List (List Int)) :
    keys ((chunks.zip vs).map fun cv => (cv.1.id, cv.2)) =
      (chunks.zip vs).map fun cv => cv.1.id := by
  simp [keys, List.map_map]

theorem keys_graphOps (doc : Doc) (chunks : List Chunk) :
    keys (chunks.map fun c => (c.id, (⟨doc.docId, doc.revision, c.ordinal⟩ : GraphMeta))) =
      chunks.map Chunk.id := by
  simp [keys, List.map_map]

theorem mem_zip_ids (c : Chunk) (chunks : List Chunk) (vs : List (List Int))
    (hc : c ∈ chunks) (hlen : chunks.length ≤ vs.length) :
    c.id ∈ (chunks.zip vs).map fun cv => cv.1.id := by
  have h1 : (chunks.zip vs).map Prod.fst = chunks := List.map_fst_zip chunks vs hlen
  have h2 : ((chunks.zip vs).map Prod.fst).map Chunk.id = chunks.map Chunk.id := by rw [h1]
  rw [List.map_map] at h2
  have h3 : c.id ∈ chunks.map Chunk.id := List.mem_map_of_mem Chunk.id hc
  rw [← h2] at h3
  exact h3

/- ## Claim theorems -/

/-- C1 (amended): for every normalized text that is neither empty nor
whitespace-only, with maximum chunk size `C` and overlap `O` where `O < C`,
the Chunking Stage produces an ordered sequence of chunks whose spans cover
the interval `[0, L)` with no gaps (every position below `L` lies in some
chunk, and chunks stay within bounds), and every adjacent pair of chunks
overlaps by exactly `O`.  (The unamended claim fails for whitespace-only
texts, which yield zero chunks.) -/
theorem chunking_covers_with_overlap (C O : Nat) (text : List Char)
    (hCO : O < C) (hnw : text.all isWsChar = false) :
    (∀ p, p < text.length →
      ∃ cs ∈ chunkText C O text, cs.start ≤ p ∧ p < cs.stop) ∧
    adjacentOk C O (chunkText C O text) = true ∧
    (∀ cs ∈ chunkText C O text, cs.start < cs.stop ∧ cs.stop ≤ text.length) := by
  have hlen : 0 < text.length := length_pos_of_all_eq_false hnw
  unfold chunkText
  rw [if_neg (by simp [hnw])]
  refine ⟨?_, ?_, ?_⟩
  · intro p hp
    exact chunkSpansGo_covers C O hCO text.length text.length 0 p (by omega)
      (Nat.zero_le _) hp
  · exact chunkSpansGo_adjacent C O hCO text.length text.length 0 (by omega) hlen
  · intro cs hm
    exact (chunkSpansGo_bounds C O (by omega) text.length text.length 0 hlen cs hm).2

/-- C1 witness: the amended coverage/overlap theorem instantiated on the
five-character text `"abcde"` with chunk size 3 and overlap 1. -/
theorem chunking_covers_with_overlap_witness :
    (∀ p, p < (['a', 'b', 'c', 'd', 'e'] : List Char).length →
      ∃ cs ∈ chunkText 3 1 ['a', 'b', 'c', 'd', 'e'], cs.start ≤ p ∧ p < cs.stop) ∧
    adjacentOk 3 1 (chunkText 3 1 ['a', 'b', 'c', 'd', 'e']) = true ∧
    (∀ cs ∈ chunkText 3 1 ['a', 'b', 'c', 'd', 'e'],
      cs.start < cs.stop ∧ cs.stop ≤ (['a', 'b', 'c', 'd', 'e'] : List Char).length) :=
  chunking_covers_with_overlap 3 1 ['a', 'b', 'c', 'd', 'e'] (by decide) (by decide)

/-- C1 counterexample: the claim as stated quantifies over every normalized
text, but a whitespace-only text of length 3 (chunk size 2, overlap 1)
produces zero chunks, so position 0 of `[0, 3)` is covered by no chunk. -/
theorem chunking_covers_with_overlap_cex :
    ([' ', ' ', ' '] : List Char).length = 3 ∧ 1 < 2 ∧
    ¬ ∃ cs ∈ chunkText 2 1 [' ', ' ', ' '], cs.start ≤ 0 ∧ 0 < cs.stop := by
  decide

/-- C6: for every batch given to the Embedding Stage, the stage either
returns exactly one vector per chunk in the same order as the input (length
preserved, elementwise correspondence), or fails the whole batch with the
embedding-backend error; some chunk failing always fails the whole batch
(never a silent drop), and no other error classification is produced. -/
theorem embedding_batch_all_or_nothing (embedOne : List Char → Option (List Int))
    (batch : List (List Char)) :
    (∀ vs, embedBatch embedOne batch = .ok vs →
      vs.length = batch.length ∧ ∀ p ∈ batch.zip vs, embedOne p.1 = some p.2) ∧
    (embedBatch embedOne batch = .error .embeddingBackend ↔
      ∃ t ∈ batch, embedOne t = none) ∧
    (∀ e, embedBatch embedOne batch = .error e → e = .embeddingBackend) := by
  refine ⟨fun vs h => ⟨embedBatch_ok_length embedOne batch vs h,
    embedBatch_ok_zip embedOne batch vs h⟩, ?_, embedBatch_error_class embedOne batch⟩
  constructor
  · intro h
    exact (embedBatch_error_iff embedOne batch).mp ⟨_, h⟩
  · intro h
    obtain ⟨e, he⟩ := (embedBatch_error_iff embedOne batch).mpr h
    have h2 := embedBatch_error_class embedOne batch e he
    rwa [h2] at he

/-- C6 witness: a batch whose second chunk fails is rejected as a whole with
the embedding-backend error. -/
theorem embedding_batch_all_or_nothing_witness :
    embedBatch (fun t => if t = ['a'] then none else some [1]) [['b'], ['a']] =
      .error .embeddingBackend :=
  (embedding_batch_all_or_nothing (fun t => if t = ['a'] then none else some [1])
    [['b'], ['a']]).2.1.mpr ⟨['a'], by decide, by decide⟩

/-- C4: if the document's re-read current revision is newer than the revision
being processed, the coordinator's run aborts without error — it issues no
store writes at all (so no chunk from the superseded revision is embedded or
indexed, and every store is left unchanged), emits nothing, and does not
raise to the event handler. -/
theorem staleness_check_aborts (cfg : ChunkConfig) (retryLimit : Nat)
    (embedAttempt : Nat → List Char → Option (List Int)) (doc : Doc)
    (currentRev : Nat) (hstale : doc.revision < currentRev) :
    (handleEvent cfg retryLimit embedAttempt doc currentRev).ops = [] ∧
    (handleEvent cfg retryLimit embedAttempt doc currentRev).raised = false ∧
    (handleEvent cfg retryLimit embedAttempt doc currentRev).emitted = [] ∧
    ∀ s : Stores,
      applyTrace s (handleEvent cfg retryLimit embedAttempt doc currentRev).ops = s := by
  refine ⟨?_, ?_, ?_, ?_⟩ <;> simp [handleEvent, hstale, applyTrace]

/-- C4 witness: a run of revision 1 that observes current revision 2 writes
nothing, raises nothing, and emits nothing. -/
theorem staleness_check_aborts_witness :
    (handleEvent ⟨5, 2⟩ 1 (fun _ _ => some [1]) ⟨"d", 1, ['a']⟩ 2).ops = [] ∧
    (handleEvent ⟨5, 2⟩ 1 (fun _ _ => some [1]) ⟨"d", 1, ['a']⟩ 2).raised = false ∧
    (handleEvent ⟨5, 2⟩ 1 (fun _ _ => some [1]) ⟨"d", 1, ['a']⟩ 2).emitted = [] ∧
    ∀ s : Stores,
      applyTrace s (handleEvent ⟨5, 2⟩ 1 (fun _ _ => some [1]) ⟨"d", 1, ['a']⟩ 2).ops = s :=
  staleness_check_aborts ⟨5, 2⟩ 1 (fun _ _ => some [1]) ⟨"d", 1, ['a']⟩ 2 (by decide)

/-- C5: when every embedding attempt within the retry budget fails, the
coordinator writes exactly one `failed` Job State carrying the last attempt's
error classification, emits a failure event, and does not raise to the event
handler, so the consumer offset is still committed. -/
theorem retry_exhaustion_failed (cfg : ChunkConfig) (retryLimit : Nat)
    (embedAttempt : Nat → List Char → Option (List Int)) (doc : Doc)
    (currentRev : Nat) (errOf : Nat → ErrClass)
    (hrev : currentRev ≤ doc.revision)
    (hnw : doc.text.all isWsChar = false)
    (hfail : ∀ i, i ≤ retryLimit →
      embedBatch (embedAttempt i) ((chunksOf cfg doc).map Chunk.text) =
        .error (errOf i)) :
    (handleEvent cfg retryLimit embedAttempt doc currentRev).ops =
      [.docPut (docKeyOf doc.docId doc.revision) ⟨.failed, some (errOf retryLimit)⟩] ∧
    (handleEvent cfg retryLimit embedAttempt doc currentRev).emitted =
      [.failure doc.docId doc.revision (errOf retryLimit)] ∧
    (handleEvent cfg retryLimit embedAttempt doc currentRev).raised = false ∧
    offsetCommitted (handleEvent cfg retryLimit embedAttempt doc currentRev) = true := by
  have hstale : ¬ doc.revision < currentRev := by omega
  have htry : tryAttempts
      (fun i => embedBatch (embedAttempt i) ((chunksOf cfg doc).map Chunk.text))
      0 retryLimit = .error (errOf retryLimit) := by
    have h2 := tryAttempts_all_fail
      (fun i => embedBatch (embedAttempt i) ((chunksOf cfg doc).map Chunk.text))
      errOf retryLimit 0 (fun j hj => by simpa using hfail j hj)
    simpa using h2
  refine ⟨?_, ?_, ?_, ?_⟩ <;> simp [handleEvent, hstale, hnw, htry, offsetCommitted]

/-- C5 witness: with a backend that always fails and a retry budget of three
attempts, the document is marked `failed` with the embedding-backend
classification, a failure event is emitted, nothing is raised, and the offset
is committed. -/
theorem retry_exhaustion_failed_witness :
    (handleEvent ⟨5, 2⟩ 2 (fun _ _ => none) ⟨"d", 1, ['a']⟩ 1).ops =
      [.docPut (docKeyOf "d" 1) ⟨.failed, some .embeddingBackend⟩] ∧
    (handleEvent ⟨5, 2⟩ 2 (fun _ _ => none) ⟨"d", 1, ['a']⟩ 1).emitted =
      [.failure "d" 1 .embeddingBackend] ∧
    (handleEvent ⟨5, 2⟩ 2 (fun _ _ => none) ⟨"d", 1, ['a']⟩ 1).raised = false ∧
    offsetCommitted (handleEvent ⟨5, 2⟩ 2 (fun _ _ => none) ⟨"d", 1, ['a']⟩ 1) = true :=
  retry_exhaustion_failed ⟨5, 2⟩ 2 (fun _ _ => none) ⟨"d", 1, ['a']⟩ 1
    (fun _ => .embeddingBackend) (by decide) (by decide) (fun i _ => rfl)

/-- C7 (amended): a document whose normalized text is empty or
whitespace-only yields zero chunks and transitions directly to `indexed` —
the coordinator's only write is the `indexed` document-status put, with no
vector-store or graph-store writes; and every text that is neither empty nor
whitespace-only and is shorter than the minimum chunk size (any bound at most
the maximum chunk size) yields exactly one chunk.  (The unamended claim
asserts one chunk for every non-empty short text, which fails for non-empty
whitespace-only texts, which the same claim requires to yield zero chunks.) -/
theorem empty_text_fast_forward (cfg : ChunkConfig) (retryLimit : Nat)
    (embedAttempt : Nat → List Char → Option (List Int)) (doc : Doc)
    (currentRev : Nat) :
    (doc.text.all isWsChar = true → currentRev ≤ doc.revision →
      chunkText cfg.maxChunk cfg.overlap doc.text = [] ∧
      (handleEvent cfg retryLimit embedAttempt doc currentRev).ops =
        [.docPut (docKeyOf doc.docId doc.revision) ⟨.indexed, none⟩] ∧
      projVec (handleEvent cfg retryLimit embedAttempt doc currentRev).ops = [] ∧
      projGraph (handleEvent cfg retryLimit embedAttempt doc currentRev).ops = []) ∧
    (∀ minSize : Nat, doc.text.all isWsChar = false → minSize ≤ cfg.maxChunk →
      doc.text.length < minSize →
      (chunkText cfg.maxChunk cfg.overlap doc.text).length = 1) := by
  constructor
  · intro hws hrev
    have hstale : ¬ doc.revision < currentRev := by omega
    refine ⟨by simp [chunkText, hws], ?_, ?_, ?_⟩ <;>
      simp [handleEvent, hstale, hws, projVec, projGraph]
  · intro minSize hnw hmin hlen
    have hl : 0 < doc.text.length := length_pos_of_all_eq_false hnw
    unfold chunkText
    rw [if_neg (by simp [hnw])]
    obtain ⟨n, hn⟩ : ∃ n, doc.text.length = n + 1 := ⟨doc.text.length - 1, by omega⟩
    rw [hn, chunkSpansGo, if_neg (by omega)]
    rfl

/-- C7 witness: the whitespace-only two-character text fast-forwards to
`indexed` with zero chunks and no vector or graph writes, and the two-letter
text `"ab"` with minimum chunk size 3 and maximum chunk size 4 yields exactly
one chunk. -/
theorem empty_text_fast_forward_witness :
    (chunkText 4 1 [' ', ' '] = [] ∧
      (handleEvent ⟨4, 1⟩ 0 (fun _ _ => some [1]) ⟨"d", 1, [' ', ' ']⟩ 1).ops =
        [.docPut (docKeyOf "d" 1) ⟨.indexed, none⟩] ∧
      projVec (handleEvent ⟨4, 1⟩ 0 (fun _ _ => some [1]) ⟨"d", 1, [' ', ' ']⟩ 1).ops = [] ∧
      projGraph (handleEvent ⟨4, 1⟩ 0 (fun _ _ => some [1]) ⟨"d", 1, [' ', ' ']⟩ 1).ops = []) ∧
    (chunkText 4 1 ['a', 'b']).length = 1 :=
  ⟨(empty_text_fast_forward ⟨4, 1⟩ 0 (fun _ _ => some [1]) ⟨"d", 1, [' ', ' ']⟩ 1).1
      (by decide) (by decide),
    (empty_text_fast_forward ⟨4, 1⟩ 0 (fun _ _ => some [1]) ⟨"d", 1, ['a', 'b']⟩ 1).2 3
      (by decide) (by decide) (by decide)⟩

/-- C7 counterexample: the two-space text is non-empty and shorter than a
minimum chunk size of 3 (maximum chunk size 4, overlap 1), yet the Chunking
Stage produces zero chunks, not exactly one, because the text is
whitespace-only. -/
theorem empty_text_fast_forward_cex :
    ([' ', ' '] : List Char) ≠ [] ∧ ([' ', ' '] : List Char).length < 3 ∧ (3 : Nat) ≤ 4 ∧
    (chunkText 4 1 [' ', ' ']).length = 0 := by
  decide

theorem applyUpserts_twice {κ α : Type} [DecidableEq κ] (k : κ)
    (m ws : List (κ × α)) :
    alookup k (applyUpserts (applyUpserts m ws) ws) =
      alookup k (applyUpserts m ws) := by
  rw [alookup_applyUpserts, alookup_applyUpserts]
  cases hl : lastVal k ws <;> simp

/-- C2: re-delivering the same document revision re-issues the identical
write trace, and because every write is an upsert keyed by a deterministic
chunk or document identifier, applying the trace a second time leaves every
store with the same contents as applying it once — same lookups everywhere in
the vector, graph, and document stores — and a store that started without
duplicate entries still has none after ingestion. -/
theorem ingest_idempotent (cfg : ChunkConfig) (retryLimit : Nat)
    (embedAttempt : Nat → List Char → Option (List Int)) (doc : Doc)
    (currentRev : Nat) (s : Stores) :
    let ops := (handleEvent cfg retryLimit embedAttempt doc currentRev).ops
    (∀ k, alookup k (applyTrace (applyTrace s ops) ops).vector =
      alookup k (applyTrace s ops).vector) ∧
    (∀ k, alookup k (applyTrace (applyTrace s ops) ops).graph =
      alookup k (applyTrace s ops).graph) ∧
    (∀ k, alookup k (applyTrace (applyTrace s ops) ops).docs =
      alookup k (applyTrace s ops).docs) ∧
    (keysNodup s.vector → keysNodup (applyTrace s ops).vector) ∧
    (keysNodup s.graph → keysNodup (applyTrace s ops).graph) ∧
    (keysNodup s.docs → keysNodup (applyTrace s ops).docs) := by
  intro ops
  refine ⟨?_, ?_, ?_, ?_, ?_, ?_⟩
  · intro k
    rw [applyTrace_proj ops s, applyTrace_proj ops _]
    exact applyUpserts_twice k s.vector (projVec ops)
  · intro k
    rw [applyTrace_proj ops s, applyTrace_proj ops _]
    exact applyUpserts_twice k s.graph (projGraph ops)
  · intro k
    rw [applyTrace_proj ops s, applyTrace_proj ops _]
    exact applyUpserts_twice k s.docs (projDocs ops)
  · intro h
    rw [applyTrace_proj ops s]
    exact keysNodup_applyUpserts (projVec ops) s.vector h
  · intro h
    rw [applyTrace_proj ops s]
    exact keysNodup_applyUpserts (projGraph ops) s.graph h
  · intro h
    rw [applyTrace_proj ops s]
    exact keysNodup_applyUpserts (projDocs ops) s.docs h

/-- Concrete ingestion run used by the idempotence witness. -/
def w2ops : List WriteOp :=
  (handleEvent ⟨2, 1⟩ 0 (fun _ _ => some [1]) ⟨"d", 1, ['a', 'b']⟩ 1).ops

/-- C2 witness: running the concrete two-character ingestion twice leaves the
chunk's vector-store entry as after one run, and the vector store still has
no duplicate entries. -/
theorem ingest_idempotent_witness :
    (alookup ("d", 0) (applyTrace (applyTrace ⟨[], [], []⟩ w2ops) w2ops).vector =
      alookup ("d", 0) (applyTrace (⟨[], [], []⟩ : Stores) w2ops).vector) ∧
    keysNodup (applyTrace (⟨[], [], []⟩ : Stores) w2ops).vector := by
  have h := ingest_idempotent ⟨2, 1⟩ 0 (fun _ _ => some [1]) ⟨"d", 1, ['a', 'b']⟩ 1
    ⟨[], [], []⟩
  exact ⟨h.1 ("d", 0), h.2.2.2.1 (by decide)⟩

theorem applyTrace_vector (s : Stores) (tr : List WriteOp) :
    (applyTrace s tr).vector = applyUpserts s.vector (projVec tr) := by
  rw [applyTrace_proj]

theorem applyTrace_graph (s : Stores) (tr : List WriteOp) :
    (applyTrace s tr).graph = applyUpserts s.graph (projGraph tr) := by
  rw [applyTrace_proj]

theorem applyTrace_docs (s : Stores) (tr : List WriteOp) :
    (applyTrace s tr).docs = applyUpserts s.docs (projDocs tr) := by
  rw [applyTrace_proj]

/-- C3: in every state reachable by applying any prefix of the coordinator's
write trace to stores whose Job State for this revision is not yet `indexed`,
the document is never observably `indexed` while its chunks' vector-store (or
graph-store) entries are absent — the `indexed` status write is ordered after
all vector and graph writes of the revision. -/
theorem indexed_implies_artifacts_present (cfg : ChunkConfig) (retryLimit : Nat)
    (embedAttempt : Nat → List Char → Option (List Int)) (doc : Doc)
    (currentRev : Nat) (s : Stores) (n : Nat)
    (hinit : ∀ j, alookup (docKeyOf doc.docId doc.revision) s.docs = some j →
      j.status ≠ .indexed) :
    ∀ j, alookup (docKeyOf doc.docId doc.revision)
        (applyTrace s
          ((handleEvent cfg retryLimit embedAttempt doc currentRev).ops.take n)).docs =
        some j →
      j.status = .indexed →
      ∀ c ∈ chunksOf cfg doc,
        (alookup c.id (applyTrace s
          ((handleEvent cfg retryLimit embedAttempt doc currentRev).ops.take n)).vector).isSome ∧
        (alookup c.id (applyTrace s
          ((handleEvent cfg retryLimit embedAttempt doc currentRev).ops.take n)).graph).isSome := by
  by_cases hstale : doc.revision < currentRev
  · intro j hj hidx c hc
    rw [show (handleEvent cfg retryLimit embedAttempt doc currentRev).ops = [] from
      by simp [handleEvent, hstale]] at hj
    simp [applyTrace] at hj
    exact absurd hidx (hinit j hj)
  · by_cases hws : doc.text.all isWsChar
    · intro j hj hidx c hc
      have hchunks : chunksOf cfg doc = [] := by
        simp [chunksOf, chunkText, hws]
      rw [hchunks] at hc
      simp at hc
    · cases htry : tryAttempts
          (fun i => embedBatch (embedAttempt i) ((chunksOf cfg doc).map Chunk.text))
          0 retryLimit with
      | error e =>
        intro j hj hidx c hc
        have hops : (handleEvent cfg retryLimit embedAttempt doc currentRev).ops =
            [.docPut (docKeyOf doc.docId doc.revision) ⟨.failed, some e⟩] := by
          simp [handleEvent, hstale, hws, htry]
        rw [hops] at hj
        cases n with
        | zero =>
          simp [applyTrace] at hj
          exact absurd hidx (hinit j hj)
        | succ m =>
          have htake :
              ([WriteOp.docPut (docKeyOf doc.docId doc.revision)
                ⟨.failed, some e⟩] : List WriteOp).take (m + 1) =
              [WriteOp.docPut (docKeyOf doc.docId doc.revision) ⟨.failed, some e⟩] := by
            simp
          rw [htake] at hj
          simp only [applyTrace, applyOp] at hj
          have hj3 : alookup (docKeyOf doc.docId doc.revision)
              (upsert (docKeyOf doc.docId doc.revision)
                (⟨.failed, some e⟩ : JobState) s.docs) = some j := hj
          rw [alookup_upsert_self] at hj3
          have hj2 : j = (⟨.failed, some e⟩ : JobState) := by
            injection hj3 with h2
            exact h2.symm
          rw [hj2] at hidx
          simp at hidx
      | ok vs =>
        intro j hj hidx c hc
        have hlen : vs.length = (chunksOf cfg doc).length := by
          obtain ⟨jj, hjj⟩ := tryAttempts_ok
            (fun i => embedBatch (embedAttempt i) ((chunksOf cfg doc).map Chunk.text))
            retryLimit 0 vs htry
          have h2 := embedBatch_ok_length (embedAttempt jj)
            ((chunksOf cfg doc).map Chunk.text) vs hjj
          simpa using h2
        have hops : (handleEvent cfg retryLimit embedAttempt doc currentRev).ops =
            ((chunksOf cfg doc).zip vs).map (fun cv => .vecUpsert cv.1.id cv.2) ++
            (chunksOf cfg doc).map
              (fun c2 => .graphUpsert c2.id ⟨doc.docId, doc.revision, c2.ordinal⟩) ++
            [.docPut (docKeyOf doc.docId doc.revision) ⟨.indexed, none⟩] := by
          simp [handleEvent, hstale, hws, htry]
        rw [hops] at hj ⊢
        set A := ((chunksOf cfg doc).zip vs).map
          (fun cv => WriteOp.vecUpsert cv.1.id cv.2) with hA
        set B := (chunksOf cfg doc).map
          (fun c2 => WriteOp.graphUpsert c2.id
            (⟨doc.docId, doc.revision, c2.ordinal⟩ : GraphMeta)) with hB
        by_cases hn : n ≤ (A ++ B).length
        · have htake : ((A ++ B) ++ [WriteOp.docPut (docKeyOf doc.docId doc.revision)
              ⟨.indexed, none⟩]).take n = (A ++ B).take n := by
            rw [List.take_append_eq_append_take]
            have h0 : n - (A ++ B).length = 0 := by omega
            rw [h0]
            simp
          have hnodoc : projDocs ((A ++ B).take n) = [] := by
            apply projDocs_nil_of_no_docPut
            intro op hop k2 j2
            have hop2 : op ∈ A ++ B := List.take_subset n (A ++ B) hop
            rcases List.mem_append.mp hop2 with h1 | h1
            · rw [hA] at h1
              obtain ⟨cv, hcv, heq⟩ := List.mem_map.mp h1
              rw [← heq]
              simp
            · rw [hB] at h1
              obtain ⟨c2, hc2, heq⟩ := List.mem_map.mp h1
              rw [← heq]
              simp
          rw [htake, applyTrace_docs, hnodoc] at hj
          rw [show applyUpserts s.docs ([] : List ((String × Nat) × JobState)) = s.docs
            from rfl] at hj
          exact absurd hidx (hinit j hj)
        · have hlenops : ((A ++ B) ++ [WriteOp.docPut (docKeyOf doc.docId doc.revision)
              ⟨.indexed, none⟩]).length ≤ n := by
            rw [List.length_append]
            simp only [List.length_cons, List.length_nil]
            omega
          have htake : ((A ++ B) ++ [WriteOp.docPut (docKeyOf doc.docId doc.revision)
              ⟨.indexed, none⟩]).take n =
              (A ++ B) ++ [WriteOp.docPut (docKeyOf doc.docId doc.revision)
                ⟨.indexed, none⟩] := List.take_of_length_le hlenops
          rw [htake] at hj ⊢
          have hpv : projVec ((A ++ B) ++ [WriteOp.docPut (docKeyOf doc.docId doc.revision)
              ⟨.indexed, none⟩]) =
              ((chunksOf cfg doc).zip vs).map fun cv => (cv.1.id, cv.2) := by
            rw [projVec_append, projVec_append, hA, hB, projVec_vecOps,
              projVec_graphOps doc]
            simp [projVec]
          have hpg : projGraph ((A ++ B) ++ [WriteOp.docPut (docKeyOf doc.docId doc.revision)
              ⟨.indexed, none⟩]) =
              (chunksOf cfg doc).map
                fun c2 => (c2.id, (⟨doc.docId, doc.revision, c2.ordinal⟩ : GraphMeta)) := by
            rw [projGraph_append, projGraph_append, hA, hB, projGraph_vecOps,
              projGraph_graphOps doc]
            simp [projGraph]
          refine ⟨?_, ?_⟩
          · rw [applyTrace_vector, hpv]
            apply alookup_applyUpserts_isSome
            rw [keys_vecOps]
            exact mem_zip_ids c (chunksOf cfg doc) vs hc (by omega)
          · rw [applyTrace_graph, hpg]
            apply alookup_applyUpserts_isSome
            rw [keys_graphOps doc]
            exact List.mem_map_of_mem Chunk.id hc

/-- C3 witness: in the final reachable state of a concrete successful run
(prefix length 9 exceeds the whole trace) the document is `indexed` and the
chunk's vector and graph entries are both present. -/
theorem indexed_implies_artifacts_present_witness :
    (alookup (("d", 0) : String × Nat) (applyTrace ⟨[], [], []⟩
      ((handleEvent ⟨5, 2⟩ 0 (fun _ _ => some [1]) ⟨"d", 1, ['h', 'i']⟩ 1).ops.take 9)).vector).isSome ∧
    (alookup (("d", 0) : String × Nat) (applyTrace ⟨[], [], []⟩
      ((handleEvent ⟨5, 2⟩ 0 (fun _ _ => some [1]) ⟨"d", 1, ['h', 'i']⟩ 1).ops.take 9)).graph).isSome := by
  have h := indexed_implies_artifacts_present ⟨5, 2⟩ 0 (fun _ _ => some [1])
    ⟨"d", 1, ['h', 'i']⟩ 1 ⟨[], [], []⟩ 9 (fun j hj => by simp [alookup] at hj)
  exact h ⟨.indexed, none⟩ (by decide) rfl ⟨("d", 0), 0, ⟨0, 2⟩, ['h', 'i']⟩ (by decide)

/- ## Event channels (docker-compose Kafka topic manifest) -/

/-- Split a character list on a separator character (comma/colon splitting of
the topic manifest entries). -/
def splitOnChar (sep : Char) : List Char → List (List Char)
  | [] => [[]]
  | c :: cs =>
    if c = sep then [] :: splitOnChar sep cs
    else
      match splitOnChar sep cs with
      | [] => [[c]]
      | g :: gs => (c :: g) :: gs

/-- The `KAFKA_CREATE_TOPICS` environment value of the `kafka-1` service in
the deployment manifest, verbatim. -/
def KAFKA_CREATE_TOPICS : String := "record-events:1:1,entity-events:1:1,sync-events:1:1"

/-- The topic names declared by a `KAFKA_CREATE_TOPICS` value: entries are
comma-separated, and each entry is `name:partitions:replicas`. -/
def kafkaTopicNames (s : String) : List String :=
  (splitOnChar ',' s.data).map fun entry => String.mk ((splitOnChar ':' entry).headD [])

/-- C8: the event bus manifest declares exactly three channels — the
record-change channel `record-events`, the derived-entity channel
`entity-events`, and the synchronization/completion channel `sync-events`. -/
theorem event_bus_three_channels :
    kafkaTopicNames KAFKA_CREATE_TOPICS = ["record-events", "entity-events", "sync-events"] ∧
    (kafkaTopicNames KAFKA_CREATE_TOPICS).length = 3 := by
  decide

/- ## FontOptions label (presets-options.tsx) -/

/-- JavaScript `String.prototype.endsWith`: suffix test. -/
def jsEndsWith (s sfx : List Char) : Bool := List.isSuffixOf sfx s

/-- JavaScript `String.prototype.replace` with a string pattern: scan left to
right and substitute only the first occurrence of `pat`, leaving the string
unchanged when `pat` does not occur. -/
def jsReplaceFirst (pat sub : List Char) : List Char → List Char
  | [] => if List.isPrefixOf pat [] then sub else []
  | c :: cs =>
    if List.isPrefixOf pat (c :: cs) then sub ++ (c :: cs).drop pat.length
    else c :: jsReplaceFirst pat sub cs

/-- The label computed by the `FontOptions` component for one option:
`option.endsWith('Variable') ? option.replace(' Variable', '') : option`. -/
def fontOptionLabel (option : String) : String :=
  if jsEndsWith option.data "Variable".data then
    String.mk (jsReplaceFirst " Variable".data [] option.data)
  else option

/-- Index of the first occurrence of `pat` in a character list, if any. -/
def firstOccIdx (pat : List Char) : List Char → Option Nat
  | [] => if pat = [] then some 0 else none
  | c :: cs =>
    if List.isPrefixOf pat (c :: cs) then some 0
    else (firstOccIdx pat cs).map (· + 1)

/-- Stated from the claim: the option with the first occurrence of the
substring removed (splice out `pat.length` characters at the first occurrence
index), the option unchanged when the substring does not occur. -/
def removeFirstOcc (pat s : List Char) : List Char :=
  match firstOccIdx pat s with
  | none => s
  | some i => s.take i ++ s.drop (i + pat.length)

/-- Stated from the claim: the displayed label equals the option with the
first occurrence of `" Variable"` removed when the option ends with
`"Variable"`, and equals the option unchanged otherwise. -/
def specFontLabel (option : String) : String :=
  if jsEndsWith option.data "Variable".data then
    String.mk (removeFirstOcc " Variable".data option.data)
  else option

theorem jsReplaceFirst_eq_splice (pat sub : List Char) :
    ∀ s : List Char, jsReplaceFirst pat sub s =
      match firstOccIdx pat s with
      | none => s
      | some i => s.take i ++ sub ++ s.drop (i + pat.length) := by
  intro s
  induction s with
  | nil =>
    by_cases hp : pat = []
    · subst hp
      simp [jsReplaceFirst, firstOccIdx, List.isPrefixOf]
    · simp [jsReplaceFirst, firstOccIdx, hp]
  | cons c cs ih =>
    by_cases hpre : List.isPrefixOf pat (c :: cs)
    · simp [jsReplaceFirst, firstOccIdx, hpre]
    · rw [jsReplaceFirst, if_neg hpre, firstOccIdx, if_neg hpre]
      cases hocc : firstOccIdx pat cs with
      | none =>
        rw [ih, hocc]
        rfl
      | some i =>
        rw [ih, hocc]
        simp [Option.map_some, List.take_succ_cons, List.drop_succ_cons,
          Nat.add_right_comm i 1 pat.length]

/-- C9: for every option string rendered by the FontOptions component, the
displayed label equals the option with the first occurrence of the substring
`" Variable"` removed when the option ends with `"Variable"`, and equals the
option unchanged otherwise. -/
theorem fontOptions_label_spec (option : String) :
    fontOptionLabel option = specFontLabel option := by
  unfold fontOptionLabel specFontLabel
  by_cases h : jsEndsWith option.data "Variable".data
  · rw [if_pos h, if_pos h]
    congr 1
    rw [jsReplaceFirst_eq_splice]
    unfold removeFirstOcc
    cases hocc : firstOccIdx " Variable".data option.data with
    | none => rfl
    | some i => simp
  · rw [if_neg h, if_neg h]

/- ## Image component effect (src/unnamed/part_000) -/

/-- The props of the Image component relevant to the forwarded effect. -/
structure ImageEffectProps where
  effect : Option String
  visibleByDefault : Option Bool
  disabledEffect : Option Bool
deriving DecidableEq, Repr

/-- JavaScript truthiness of an optional boolean prop (`undefined` is falsy). -/
def jsTruthy : Option Bool → Bool
  | some b => b
  | none => false

/-- The effect the Image component forwards to the underlying lazy-load
image: `visibleByDefault || disabledEffect ? undefined : effect`, with the
destructuring defaults `effect = 'blur'` and `disabledEffect = false`. -/
def forwardedEffect (p : ImageEffectProps) : Option String :=
  if jsTruthy p.visibleByDefault || p.disabledEffect.getD false then none
  else some (p.effect.getD "blur")

/-- C10: the forwarded effect is undefined exactly when `visibleByDefault` is
true or `disabledEffect` is true; otherwise it is the `effect` prop, which
defaults to `'blur'` when not supplied (with `disabledEffect` defaulting to
false). -/
theorem image_forwarded_effect (p : ImageEffectProps) :
    (forwardedEffect p = none ↔
      p.visibleByDefault = some true ∨ p.disabledEffect = some true) ∧
    (¬ (p.visibleByDefault = some true ∨ p.disabledEffect = some true) →
      forwardedEffect p = some (p.effect.getD "blur")) := by
  obtain ⟨eff, vis, dis⟩ := p
  have hv : vis = none ∨ vis = some false ∨ vis = some true := by
    rcases vis with _ | b
    · exact .inl rfl
    · cases b
      · exact .inr (.inl rfl)
      · exact .inr (.inr rfl)
  have hd : dis = none ∨ dis = some false ∨ dis = some true := by
    rcases dis with _ | b
    · exact .inl rfl
    · cases b
      · exact .inr (.inl rfl)
      · exact .inr (.inr rfl)
  rcases hv with h1 | h1 | h1 <;> rcases hd with h2 | h2 | h2 <;> subst h1 <;> subst h2 <;>
    simp [forwardedEffect, jsTruthy]

/-- C10 witness: with no props supplied the forwarded effect is the default
`'blur'`. -/
theorem image_forwarded_effect_witness :
    forwardedEffect ⟨none, none, none⟩ = some "blur" :=
  (image_forwarded_effect ⟨none, none, none⟩).2 (by simp)
